import Mathlib

/-!
# urlsfilt: a verification development

A shallow embedding of `urlsfilt.go` (functions `main`, `readURLs`, `filterURLs`,
`shouldFilter`, `writeOutput`) together with the parts of the Go standard library
they call (`strings.Contains`, `strings.Split`, `strings.TrimSpace`,
`bufio.Scanner` with `bufio.ScanLines`, `fmt` with the verb `%d`).

A Go `string` is a sequence of bytes.  It is modelled as a list of natural numbers,
every byte being a number below 256.  Nothing below needs the bound: a number of
256 or more is treated like a byte that can never start or continue a UTF-8
sequence.
-/

namespace Urlsfilt

/-! ## Strings -/

/-- Go `string`: the list of its bytes. -/
abbrev Str := List Nat

/-- The bytes (UTF-8) of a string literal. -/
def utf8 (s : String) : Str :=
  s.toList.flatMap fun c => (String.utf8EncodeChar c).map UInt8.toNat

/-- Go `strings.HasPrefix(s, p)`. -/
def hasPrefix (s p : Str) : Bool :=
  p.isPrefixOf s

/-- Go `strings.Index(s, substr)`: the first position at which `substr` occurs
in `s`; `none` stands for the result `-1`. -/
def index : Str → Str → Option Nat
  | [], substr => if hasPrefix [] substr then some 0 else none
  | b :: s, substr =>
    if hasPrefix (b :: s) substr then some 0
    else (index s substr).map (· + 1)

/-- Go `strings.Contains(s, substr)`, that is `Index(s, substr) >= 0`. -/
def contains (s substr : Str) : Bool :=
  (index s substr).isSome

/-! ## The filter (`urlsfilt.go`, lines 97 to 119) -/

/-- Source `shouldFilter`: the loop over the patterns returns `true` at the first
pattern the URL contains and `false` when the patterns are exhausted. -/
def shouldFilter (url : Str) : List Str → Bool
  | [] => false
  | pattern :: rest =>
    if contains url pattern then true else shouldFilter url rest

/-- The loop of `filterURLs`: `filtered` is the slice built so far, a URL that
is not to be filtered is appended to it. -/
def filterLoop (patterns : List Str) : List Str → List Str → List Str
  | [], filtered => filtered
  | url :: rest, filtered =>
    if !shouldFilter url patterns then filterLoop patterns rest (filtered ++ [url])
    else filterLoop patterns rest filtered

/-- Source `filterURLs`. -/
def filterURLs (urls patterns : List Str) : List Str :=
  if patterns.length = 0 then urls
  else filterLoop patterns urls []

/-! ## UTF-8 decoding (Go package `unicode/utf8`) -/

/-- Go `utf8.RuneError`. -/
def RuneError : Nat := 0xFFFD

/-- Go `utf8.RuneSelf`: bytes below it are runes by themselves. -/
def RuneSelf : Nat := 0x80

/-- Go tables `utf8.first` and `utf8.acceptRanges`, read together: for a lead
byte the length of its sequence and the range accepted for the second byte;
`none` for the bytes the table marks invalid (`xx`).  ASCII bytes are handled
before the table is consulted. -/
def first (b : Nat) : Option (Nat × Nat × Nat) :=
  if 0xC2 ≤ b ∧ b ≤ 0xDF then some (2, 0x80, 0xBF)
  else if b = 0xE0 then some (3, 0xA0, 0xBF)
  else if 0xE1 ≤ b ∧ b ≤ 0xEC then some (3, 0x80, 0xBF)
  else if b = 0xED then some (3, 0x80, 0x9F)
  else if 0xEE ≤ b ∧ b ≤ 0xEF then some (3, 0x80, 0xBF)
  else if b = 0xF0 then some (4, 0x90, 0xBF)
  else if 0xF1 ≤ b ∧ b ≤ 0xF3 then some (4, 0x80, 0xBF)
  else if b = 0xF4 then some (4, 0x80, 0x8F)
  else none

/-- Go `utf8.DecodeRuneInString`: the first rune of `s` and its width in bytes.
An invalid or truncated sequence decodes as `(RuneError, 1)`, the empty string
as `(RuneError, 0)`.  The test `n < sz` of the Go code is the case of a missing
byte below. -/
def decodeRune : Str → Nat × Nat
  | [] => (RuneError, 0)
  | s0 :: rest =>
    if s0 < RuneSelf then (s0, 1)
    else
      match first s0 with
      | none => (RuneError, 1)
      | some (sz, lo, hi) =>
        match rest with
        | [] => (RuneError, 1)
        | s1 :: rest1 =>
          if s1 < lo ∨ hi < s1 then (RuneError, 1)
          else if sz ≤ 2 then (((s0 &&& 0x1F) <<< 6) ||| (s1 &&& 0x3F), 2)
          else
            match rest1 with
            | [] => (RuneError, 1)
            | s2 :: rest2 =>
              if s2 < 0x80 ∨ 0xBF < s2 then (RuneError, 1)
              else if sz ≤ 3 then
                (((s0 &&& 0x0F) <<< 12) ||| ((s1 &&& 0x3F) <<< 6) ||| (s2 &&& 0x3F), 3)
              else
                match rest2 with
                | [] => (RuneError, 1)
                | s3 :: _ =>
                  if s3 < 0x80 ∨ 0xBF < s3 then (RuneError, 1)
                  else
                    (((s0 &&& 0x07) <<< 18) ||| ((s1 &&& 0x3F) <<< 12)
                      ||| ((s2 &&& 0x3F) <<< 6) ||| (s3 &&& 0x3F), 4)

/-- Go `utf8.RuneStart`: the byte is not a continuation byte. -/
def runeStart (b : Nat) : Bool :=
  b &&& 0xC0 != 0x80

/-- The backward search of `utf8.DecodeLastRuneInString`,
`for start--; start >= lim; start-- { if RuneStart(s[start]) { break } }`
followed by `if start < 0 { start = 0 }`.  The argument is `start + 1` for the
value `start` has before the next `start--`; the result is the final `start`. -/
def lastStart (s : Str) (lim : Nat) : Nat → Nat
  | 0 => 0
  | k + 1 =>
    if lim ≤ k then
      if runeStart (s.getD k 0) then k else lastStart s lim k
    else k

/-- Go `utf8.DecodeLastRuneInString`: the last rune of `s` and its width. -/
def decodeLastRune (s : Str) : Nat × Nat :=
  if s.length = 0 then (RuneError, 0)
  else
    let r := s.getD (s.length - 1) 0
    if r < RuneSelf then (r, 1)
    else
      let start := lastStart s (s.length - 4) (s.length - 1)
      let d := decodeRune (s.drop start)
      if start + d.2 ≠ s.length then (RuneError, 1) else d

/-! ## White space and trimming (Go packages `unicode` and `strings`) -/

/-- Go `unicode.IsSpace`: the Latin-1 white space, and beyond Latin-1 the code
points with the Unicode property White_Space. -/
def isSpace (r : Nat) : Bool :=
  if r ≤ 0xFF then
    r = 0x09 || r = 0x0A || r = 0x0B || r = 0x0C || r = 0x0D || r = 0x20
      || r = 0x85 || r = 0xA0
  else
    r = 0x1680 || (0x2000 ≤ r && r ≤ 0x200A) || r = 0x2028 || r = 0x2029
      || r = 0x202F || r = 0x205F || r = 0x3000

/-- Go table `strings.asciiSpace`. -/
def asciiSpace (c : Nat) : Bool :=
  c = 0x09 || c = 0x0A || c = 0x0B || c = 0x0C || c = 0x0D || c = 0x20

/-- Go `strings.indexFunc(s, f, truth)`, the loop `for i, r := range s`: the
byte index of the first rune `r` with `f r = truth`; `none` stands for `-1`.
The first argument bounds the number of iterations; every iteration consumes at
least one byte, so the length of `s` is enough. -/
def indexLoop (f : Nat → Bool) (truth : Bool) : Nat → Str → Option Nat
  | 0, _ => none
  | fuel + 1, s =>
    if s.length = 0 then none
    else
      let d := decodeRune s
      if f d.1 == truth then some 0
      else (indexLoop f truth fuel (s.drop d.2)).map (· + d.2)

/-- Go `strings.indexFunc`. -/
def indexFunc (s : Str) (f : Nat → Bool) (truth : Bool) : Option Nat :=
  indexLoop f truth s.length s

/-- Go `strings.lastIndexFunc(s, f, truth)`, the loop
`for i := len(s); i > 0; { r, size := DecodeLastRuneInString(s[0:i]); i -= size; ... }`.
The first argument bounds the number of iterations; every iteration lowers `i`
by at least one, so the starting value of `i` is enough. -/
def lastIndexLoop (s : Str) (f : Nat → Bool) (truth : Bool) : Nat → Nat → Option Nat
  | 0, _ => none
  | fuel + 1, i =>
    if i = 0 then none
    else
      let d := decodeLastRune (s.take i)
      if f d.1 == truth then some (i - d.2)
      else lastIndexLoop s f truth fuel (i - d.2)

/-- Go `strings.lastIndexFunc`. -/
def lastIndexFunc (s : Str) (f : Nat → Bool) (truth : Bool) : Option Nat :=
  lastIndexLoop s f truth s.length s.length

/-- Go `strings.TrimLeftFunc`. -/
def trimLeftFunc (s : Str) (f : Nat → Bool) : Str :=
  match indexFunc s f false with
  | none => []
  | some i => s.drop i

/-- Go `strings.TrimRightFunc`. -/
def trimRightFunc (s : Str) (f : Nat → Bool) : Str :=
  match lastIndexFunc s f false with
  | some i =>
    if RuneSelf ≤ s.getD i 0 then s.take (i + (decodeRune (s.drop i)).2)
    else s.take (i + 1)
  | none => s.take 0

/-- Go `strings.TrimFunc`. -/
def trimFunc (s : Str) (f : Nat → Bool) : Str :=
  trimRightFunc (trimLeftFunc s f) f

/-- The second loop of `strings.TrimSpace`, on `s[start:]` given in reverse:
it steps over ASCII white space from the end; a non-ASCII byte hands the rest
to `TrimRightFunc`. -/
def trimSpaceStop : Str → Str
  | [] => []
  | c :: rev =>
    if RuneSelf ≤ c then trimRightFunc (c :: rev).reverse isSpace
    else if asciiSpace c then trimSpaceStop rev
    else (c :: rev).reverse

/-- Go `strings.TrimSpace`.  The first loop steps over ASCII white space from
the front; a non-ASCII byte hands the rest to `TrimFunc`. -/
def trimSpace : Str → Str
  | [] => []
  | c :: s =>
    if RuneSelf ≤ c then trimFunc (c :: s) isSpace
    else if asciiSpace c then trimSpace s
    else trimSpaceStop (c :: s).reverse

/-! ## Splitting (Go `strings.Split`) -/

/-- Go `strings.Count(s, substr)` for a separator `substr` of one byte. -/
def count (s : Str) (sep : Nat) : Nat :=
  s.count sep

/-- The loop of Go `strings.genSplit`,
`for i < n { m := Index(s, sep); if m < 0 { break }; a[i] = s[:m]; s = s[m+len(sep):]; i++ }`
followed by `a[i] = s`.  The first argument is `n - i`. -/
def genSplitLoop (sep : Str) : Nat → Str → List Str
  | 0, s => [s]
  | k + 1, s =>
    match index s sep with
    | none => [s]
    | some m => s.take m :: genSplitLoop sep k (s.drop (m + sep.length))

/-- Go `strings.Split(s, sep)` for a separator of one byte, that is
`genSplit(s, sep, 0, -1)`: `n` is `Count(s, sep) + 1`, capped at `len(s) + 1`,
and the loop runs while `i < n - 1`. -/
def split (s : Str) (sep : Nat) : List Str :=
  genSplitLoop [sep] (min (count s sep + 1) (s.length + 1) - 1) s

/-! ## Pattern resolution (`urlsfilt.go`, lines 26 to 34) -/

/-- The loop `for i := range filterPatterns { filterPatterns[i] = strings.TrimSpace(filterPatterns[i]) }`:
the first argument counts the iterations left, the second is `i`. -/
def trimLoop : Nat → Nat → List Str → List Str
  | 0, _, filterPatterns => filterPatterns
  | k + 1, i, filterPatterns =>
    trimLoop k (i + 1) (filterPatterns.set i (trimSpace (filterPatterns.getD i [])))

/-- Source `main`, the block that parses the filter patterns: `filters` is the
value of the flag `-f`, the empty string when the flag is absent. -/
def resolvePatterns (filters : Str) : List Str :=
  if filters ≠ [] then
    let filterPatterns := split filters 0x2C
    trimLoop filterPatterns.length 0 filterPatterns
  else []

/-! ## Reading (Go `bufio.Scanner`, and `urlsfilt.go`, lines 74 to 95) -/

/-- Go `bufio.MaxScanTokenSize`, the size to which the buffer of a scanner grows. -/
def maxScanTokenSize : Nat := 64 * 1024

/-- Go `bytes.IndexByte`; `none` stands for `-1`. -/
def indexByte (c : Nat) : Str → Option Nat
  | [] => none
  | b :: data => if b = c then some 0 else (indexByte c data).map (· + 1)

/-- Go `bufio.dropCR`: drops one terminal carriage return. -/
def dropCR (data : Str) : Str :=
  if data.getLast? = some 0x0D then data.dropLast else data

/-- Go `bufio.ScanLines`: the number of bytes to advance and the token, `none`
when more data is requested (or, at the end of the input, there is nothing left). -/
def scanLines (data : Str) (atEOF : Bool) : Nat × Option Str :=
  if atEOF && data.length = 0 then (0, none)
  else
    match indexByte 0x0A data with
    | some i => (i + 1, some (dropCR (data.take i)))
    | none => if atEOF then (data.length, some (dropCR data)) else (0, none)

/-- The errors of `readURLs` that depend on the content of the file. -/
inductive ScanError
  | tooLong
  | noProgress
  deriving DecidableEq, Repr

deriving instance DecidableEq for Except

/-- One call of `Scanner.Scan`. -/
inductive ScanResult
  | token (text : Str) (rest : Str)
  | done
  | failed (err : ScanError)
  deriving DecidableEq, Repr

/-- Go `(*bufio.Scanner).Scan` with the split function `ScanLines`, on the part
`rest` of the file that is not consumed yet.  The scanner fills its buffer from
the reader, asking `ScanLines` for a token, until the buffer holds
`maxScanTokenSize` bytes: the split function sees at most the first
`maxScanTokenSize` bytes of `rest`, and sees the end of the input only when all
of `rest` fits in the buffer with room to spare.  A buffer that is full without
a token is the error `ErrTooLong`. -/
def scan (rest : Str) : ScanResult :=
  if rest.length = 0 then .done
  else
    match scanLines (rest.take maxScanTokenSize) (rest.length < maxScanTokenSize) with
    | (advance, some token) => .token token (rest.drop advance)
    | (_, none) => .failed .tooLong

/-- The loop `for scanner.Scan() { ... }` of `readURLs`, followed by the test of
`scanner.Err()`.  The first argument bounds the number of calls of `Scan`; a
call that yields a token consumes at least one byte, so one more than the
length of the input is enough, and `noProgress` is never returned by `readURLs`. -/
def readLoop : Nat → Str → List Str → Except ScanError (List Str)
  | 0, _, _ => .error .noProgress
  | fuel + 1, rest, urls =>
    match scan rest with
    | .done => .ok urls
    | .failed err => .error err
    | .token text rest1 =>
      let line := trimSpace text
      if line ≠ [] then readLoop fuel rest1 (urls ++ [line])
      else readLoop fuel rest1 urls

/-- Source `readURLs`, on the content `file` of the file it opened.  Failures of
`os.Open` and of the reads are outside the model. -/
def readURLs (file : Str) : Except ScanError (List Str) :=
  readLoop (file.length + 1) file []

/-! ## Writing (`urlsfilt.go`, lines 121 to 144) -/

/-- The loop of `writeOutput`: `written` is what the buffered writer has
accepted so far, every URL is written followed by a newline. -/
def writeLoop : List Str → Str → Str
  | [], written => written
  | url :: rest, written => writeLoop rest (written ++ (url ++ [0x0A]))

/-- Source `writeOutput`: the text that reaches the destination (the file
`outputFile`, or the standard output when `outputFile` is empty) once the
writer is flushed.  Both branches write the same text; failures of `os.Create`
and of the writes are outside the model. -/
def writeOutput (urls : List Str) (outputFile : Str) : Str :=
  if outputFile ≠ [] then writeLoop urls []
  else writeLoop urls []

/-! ## The summary and `main` (`urlsfilt.go`, lines 11 to 54) -/

/-- The decimal digits of a natural number, as bytes. -/
def digits (n : Nat) : Str :=
  (Nat.toDigits 10 n).map Char.toNat

/-- Go `fmt` verb `%d` on an `int`. -/
def fmtD : Int → Str
  | Int.ofNat n => digits n
  | Int.negSucc n => 0x2D :: digits (n + 1)

/-- The text of `fmt.Fprintf(os.Stderr, "Filtered %d URLs, %d remaining\n", removed, remaining)`. -/
def summary (removed remaining : Int) : Str :=
  utf8 "Filtered " ++ fmtD removed ++ utf8 " URLs, " ++ fmtD remaining ++ utf8 " remaining\n"

/-- The command line after `flag.Parse`. -/
structure Flags where
  inputFile : Str
  filters : Str
  outputFile : Str
  help : Bool

/-- What a run of the program does. -/
inductive Outcome
  | usage
  | readFailed (err : ScanError)
  | success (output : Str) (stderr : Str)
  deriving DecidableEq, Repr

/-- Source `main`, on the parsed flags and the content `file` of the input
file: `usage` is the help text with exit status 0, `readFailed` the exit with
status 1 after `readURLs` failed, `success` the text written by `writeOutput`
and the summary written to the standard error.  A run in which `writeOutput`
fails (the exit with status 1 after an error of the operating system) is
outside the model, as are the failures of `os.Open`. -/
def main (flags : Flags) (file : Str) : Outcome :=
  if flags.help || flags.inputFile = [] then .usage
  else
    let filterPatterns := resolvePatterns flags.filters
    match readURLs file with
    | .error err => .readFailed err
    | .ok urls =>
      let filteredURLs := filterURLs urls filterPatterns
      let output := writeOutput filteredURLs flags.outputFile
      .success output
        (summary ((urls.length : Int) - (filteredURLs.length : Int)) (filteredURLs.length : Int))

/-! ## Notions used in the statements and proofs -/

/-- The byte can continue a UTF-8 sequence. -/
def isCont (b : Nat) : Prop := 0x80 ≤ b ∧ b ≤ 0xBF

/-- The string does not begin with a continuation byte. -/
def NotCont (s : Str) : Prop := ∀ b, s.head? = some b → ¬ isCont b

/-- The string is not empty and neither begins nor ends with white space: its
first and its last rune are not white space. -/
def Trimmed (e : Str) : Prop :=
  e ≠ [] ∧ isSpace (decodeRune e).1 = false ∧ isSpace (decodeLastRune e).1 = false

instance (e : Str) : Decidable (Trimmed e) := by
  unfold Trimmed
  exact inferInstance

/-- The lines of a text: what stands between its newline bytes. -/
def lines (data : Str) : List Str :=
  data.splitOn 0x0A

/-- The entries of a list of lines: every line trimmed, the lines that are
empty after trimming left out. -/
def entries (ls : List Str) : List Str :=
  (ls.map trimSpace).filter (fun l => decide (l ≠ []))

/-! # Theorems -/

/-! ## Substring search -/

theorem hasPrefix_iff (s p : Str) : hasPrefix s p = true ↔ p <+: s := by
  unfold hasPrefix
  exact List.isPrefixOf_iff_prefix

theorem index_isSome_iff (s p : Str) : (index s p).isSome = true ↔ p <:+: s := by
  induction s with
  | nil =>
    simp only [index]
    by_cases h : hasPrefix [] p = true
    · simp only [h, if_true, Option.isSome_some, true_iff]
      exact ((hasPrefix_iff [] p).1 h).isInfix
    · simp only [h, Option.isSome_none]
      constructor
      · intro h1
        cases h1
      · intro h1
        have h2 : p = [] := List.eq_nil_of_infix_nil h1
        subst h2
        exact absurd rfl h
  | cons b s ih =>
    simp only [index]
    rw [List.infix_cons_iff]
    by_cases h : hasPrefix (b :: s) p = true
    · simp only [h, if_true, Option.isSome_some, true_iff]
      exact Or.inl ((hasPrefix_iff _ p).1 h)
    · have h0 : hasPrefix (b :: s) p = false := by simpa using h
      rw [if_neg (by simp [h0]), Option.isSome_map', ih]
      constructor
      · intro h1
        exact Or.inr h1
      · intro h1
        rcases h1 with h1 | h1
        · exact absurd ((hasPrefix_iff _ p).2 h1) h
        · exact h1

/-- The model of `strings.Contains` decides the substring relation on byte
sequences. -/
theorem contains_iff (s p : Str) : contains s p = true ↔ p <:+: s := by
  unfold contains
  exact index_isSome_iff s p

theorem contains_nil (s : Str) : contains s [] = true :=
  (contains_iff s []).2 List.nil_infix

/-! ## The filter -/

theorem shouldFilter_iff (url : Str) (patterns : List Str) :
    shouldFilter url patterns = true ↔ ∃ p ∈ patterns, p <:+: url := by
  induction patterns with
  | nil => simp [shouldFilter]
  | cons p rest ih =>
    simp only [shouldFilter, List.mem_cons, exists_eq_or_imp]
    by_cases h : contains url p = true
    · simp only [h, if_true, true_iff]
      exact Or.inl ((contains_iff url p).1 h)
    · simp only [h]
      rw [if_neg (by simp), ih]
      constructor
      · intro h1
        exact Or.inr h1
      · intro h1
        rcases h1 with h1 | h1
        · exact absurd ((contains_iff url p).2 h1) h
        · exact h1

theorem shouldFilter_eq_false_iff (url : Str) (patterns : List Str) :
    shouldFilter url patterns = false ↔ ∀ p ∈ patterns, ¬ p <:+: url := by
  rw [← Bool.not_eq_true, shouldFilter_iff]
  simp

theorem filterLoop_eq (patterns urls filtered : List Str) :
    filterLoop patterns urls filtered
      = filtered ++ urls.filter (fun u => !shouldFilter u patterns) := by
  induction urls generalizing filtered with
  | nil => simp [filterLoop]
  | cons u rest ih =>
    simp only [filterLoop]
    by_cases h : shouldFilter u patterns = true
    · simp [h, ih]
    · simp only [Bool.not_eq_true] at h
      simp [h, ih]

theorem filterURLs_eq (urls patterns : List Str) :
    filterURLs urls patterns = urls.filter (fun u => !shouldFilter u patterns) := by
  unfold filterURLs
  by_cases h : patterns.length = 0
  · have h1 : patterns = [] := List.length_eq_zero.1 h
    subst h1
    simp [shouldFilter]
  · simp only [h, if_false]
    rw [filterLoop_eq]
    simp

theorem filterURLs_eq_filter (urls patterns : List Str) :
    filterURLs urls patterns
      = urls.filter (fun u => decide (∀ p ∈ patterns, ¬ p <:+: u)) := by
  rw [filterURLs_eq]
  apply List.filter_congr
  intro u _
  by_cases h : shouldFilter u patterns = true
  · have h1 := (shouldFilter_iff u patterns).1 h
    simp only [h, Bool.not_true]
    symm
    rw [decide_eq_false_iff_not]
    intro h2
    obtain ⟨p, hp, hin⟩ := h1
    exact h2 p hp hin
  · simp only [Bool.not_eq_true] at h
    have h1 := (shouldFilter_eq_false_iff u patterns).1 h
    simp only [h, Bool.not_false]
    symm
    rw [decide_eq_true_iff]
    exact h1

/-! ## UTF-8 decoding -/

theorem first_some {b sz lo hi : Nat} (h : first b = some (sz, lo, hi)) :
    2 ≤ sz ∧ sz ≤ 4 ∧ 0x80 ≤ lo ∧ hi ≤ 0xBF ∧ 0xC2 ≤ b := by
  unfold first at h
  split_ifs at h <;> simp only [Option.some.injEq, Prod.mk.injEq, reduceCtorEq] at h <;>
    (obtain ⟨h1, h2, h3⟩ := h; subst h1 h2 h3; omega)

theorem decodeRune_ascii {b : Nat} (t : Str) (h : b < 0x80) : decodeRune (b :: t) = (b, 1) := by
  simp [decodeRune, RuneSelf, h]

theorem decodeRune_single (b : Nat) :
    decodeRune [b] = if b < 0x80 then (b, 1) else (RuneError, 1) := by
  simp only [decodeRune, RuneSelf]
  split_ifs
  · rfl
  · rcases hf : first b with _ | ⟨sz, lo, hi⟩ <;> rfl

theorem decodeRune_size (s : Str) (h : s ≠ []) :
    1 ≤ (decodeRune s).2 ∧ (decodeRune s).2 ≤ 4 ∧ (decodeRune s).2 ≤ s.length := by
  rcases s with _ | ⟨s0, _ | ⟨s1, _ | ⟨s2, _ | ⟨s3, rest⟩⟩⟩⟩
  · exact absurd rfl h
  all_goals
    simp only [decodeRune]
    rcases hf : first s0 with _ | ⟨sz, lo, hi⟩ <;> simp only [] <;> split_ifs <;> simp

theorem notCont_nil : NotCont [] := by
  intro b h
  cases h

theorem notCont_cons {b : Nat} (t : Str) (h : ¬ isCont b) : NotCont (b :: t) := by
  intro c hc
  simp only [List.head?_cons, Option.some.injEq] at hc
  subst hc
  exact h

/-- A rune that ends where its string ends is decoded the same way when the
string goes on with a byte that is not a continuation byte. -/
theorem decodeRune_append (a rest : Str) (r : Nat) (h : decodeRune a = (r, a.length))
    (ha : a ≠ []) (hr : NotCont rest) : decodeRune (a ++ rest) = (r, a.length) := by
  rcases a with _ | ⟨s0, _ | ⟨s1, _ | ⟨s2, _ | ⟨s3, _ | ⟨s4, a5⟩⟩⟩⟩⟩
  · exact absurd rfl ha
  · -- one byte
    rw [decodeRune_single] at h
    by_cases h0 : s0 < 0x80
    · rw [if_pos h0] at h
      simp only [List.singleton_append, List.length_singleton]
      rw [decodeRune_ascii _ h0]
      exact h
    · rw [if_neg h0] at h
      simp only [List.singleton_append, List.length_singleton] at h ⊢
      rw [← h]
      rcases rest with _ | ⟨s1, rest1⟩
      · rw [decodeRune_single, if_neg h0]
      · have hc := hr s1 rfl
        unfold isCont at hc
        simp only [decodeRune, RuneSelf]
        rw [if_neg h0]
        rcases hf : first s0 with _ | ⟨sz, lo, hi⟩
        · rfl
        · have hb := first_some hf
          simp only []
          rw [if_pos (by omega)]
  · simp only [decodeRune, List.cons_append, List.nil_append, List.length_cons,
      List.length_nil] at h ⊢
    rcases hf : first s0 with _ | ⟨sz, lo, hi⟩ <;> simp only [hf] at h ⊢ <;>
      split_ifs at h ⊢ <;> simp_all
  · simp only [decodeRune, List.cons_append, List.nil_append, List.length_cons,
      List.length_nil] at h ⊢
    rcases hf : first s0 with _ | ⟨sz, lo, hi⟩ <;> simp only [hf] at h ⊢ <;>
      split_ifs at h ⊢ <;> simp_all
  · simp only [decodeRune, List.cons_append, List.nil_append, List.length_cons,
      List.length_nil] at h ⊢
    rcases hf : first s0 with _ | ⟨sz, lo, hi⟩ <;> simp only [hf] at h ⊢ <;>
      split_ifs at h ⊢ <;> simp_all
  · have hs := decodeRune_size (s0 :: s1 :: s2 :: s3 :: s4 :: a5) ha
    rw [h] at hs
    simp only [List.length_cons] at hs
    omega

/-- A non-empty prefix decodes like the whole string, or as an error. -/
theorem decodeRune_initial (a rest : Str) (ha : a ≠ []) :
    decodeRune a = decodeRune (a ++ rest) ∨ decodeRune a = (RuneError, 1) := by
  rcases a with _ | ⟨s0, _ | ⟨s1, _ | ⟨s2, _ | ⟨s3, a4⟩⟩⟩⟩
  · exact absurd rfl ha
  · rw [decodeRune_single]
    by_cases h0 : s0 < 0x80
    · left
      rw [if_pos h0, List.singleton_append, decodeRune_ascii _ h0]
    · right
      rw [if_neg h0]
  all_goals
    simp only [decodeRune, List.cons_append, List.nil_append]
    rcases hf : first s0 with _ | ⟨sz, lo, hi⟩ <;> simp only [] <;> split_ifs <;> simp

/-- Appending an ASCII byte does not change the first rune. -/
theorem decodeRune_append_ascii (a : Str) (c : Nat) (ha : a ≠ []) (hc : c < 0x80) :
    decodeRune (a ++ [c]) = decodeRune a := by
  rcases a with _ | ⟨s0, _ | ⟨s1, _ | ⟨s2, _ | ⟨s3, a4⟩⟩⟩⟩
  · exact absurd rfl ha
  all_goals
    simp only [decodeRune, List.cons_append, List.nil_append] <;>
    rcases hf : first s0 with _ | ⟨sz, lo, hi⟩ <;> simp only [] <;> split_ifs <;>
      first
        | rfl
        | (have hb := first_some hf; omega)

theorem first_none_of_lt {b : Nat} (h : b < 0xC2) : first b = none := by
  unfold first
  split_ifs <;> first | rfl | omega

theorem isSpace_runeError : isSpace RuneError = false := by decide

/-- A string whose first rune is white space does not begin with a
continuation byte. -/
theorem notCont_of_isSpace (s : Str) (h : isSpace (decodeRune s).1 = true) : NotCont s := by
  intro b hb hc
  rcases s with _ | ⟨s0, rest⟩
  · cases hb
  · simp only [List.head?_cons, Option.some.injEq] at hb
    subst hb
    unfold isCont at hc
    have h1 : decodeRune (s0 :: rest) = (RuneError, 1) := by
      simp only [decodeRune, RuneSelf]
      rw [if_neg (by omega), first_none_of_lt (by omega)]
    rw [h1, isSpace_runeError] at h
    cases h

theorem ne_nil_of_isSpace (s : Str) (h : isSpace (decodeRune s).1 = true) : s ≠ [] := by
  intro h1
  subst h1
  simp only [decodeRune, isSpace_runeError] at h
  cases h

theorem asciiSpace_eq_isSpace {c : Nat} (h : c < 0x80) : asciiSpace c = isSpace c := by
  unfold asciiSpace isSpace
  rw [if_pos (by omega)]
  have h1 : (c = 0x85) = False := by simp; omega
  have h2 : (c = 0xA0) = False := by simp; omega
  simp [h1, h2]

/-! ## The last rune -/

theorem decodeLastRune_concat_ascii (t : Str) {b : Nat} (h : b < 0x80) :
    decodeLastRune (t ++ [b]) = (b, 1) := by
  unfold decodeLastRune
  simp [RuneSelf, h, List.getD_eq_getElem?_getD]

theorem decodeLastRune_concat (t : Str) {b : Nat} (h : ¬ b < 0x80) :
    decodeLastRune (t ++ [b]) =
      if lastStart (t ++ [b]) (t.length + 1 - 4) t.length
          + (decodeRune ((t ++ [b]).drop (lastStart (t ++ [b]) (t.length + 1 - 4) t.length))).2
          ≠ t.length + 1
      then (RuneError, 1)
      else decodeRune ((t ++ [b]).drop (lastStart (t ++ [b]) (t.length + 1 - 4) t.length)) := by
  unfold decodeLastRune
  simp [RuneSelf, h, List.getD_eq_getElem?_getD]

theorem lastStart_le (s : Str) (lim k : Nat) : lastStart s lim k ≤ k := by
  induction k with
  | zero => simp [lastStart]
  | succ k ih =>
    simp only [lastStart]
    split_ifs <;> omega

theorem decodeLastRune_concat_shape (t : Str) (b : Nat) :
    1 ≤ (decodeLastRune (t ++ [b])).2 ∧ (decodeLastRune (t ++ [b])).2 ≤ t.length + 1 ∧
    decodeRune ((t ++ [b]).drop (t.length + 1 - (decodeLastRune (t ++ [b])).2))
      = decodeLastRune (t ++ [b]) := by
  have hdrop : (t ++ [b]).drop (t.length + 1 - 1) = [b] := by simp
  by_cases hb : b < 0x80
  · rw [decodeLastRune_concat_ascii t hb]
    simp only [hdrop, decodeRune_single, if_pos hb]
    simp
  · rw [decodeLastRune_concat t hb]
    have hle := lastStart_le (t ++ [b]) (t.length + 1 - 4) t.length
    generalize lastStart (t ++ [b]) (t.length + 1 - 4) t.length = st at hle ⊢
    split_ifs with hst
    · simp only [hdrop, decodeRune_single, if_neg hb]
      simp
    · have hne : List.drop st (t ++ [b]) ≠ [] := by
        intro h0
        rw [List.drop_eq_nil_iff] at h0
        simp only [List.length_append, List.length_singleton] at h0
        omega
      have hsz := decodeRune_size _ hne
      have heq : t.length + 1 - (decodeRune (List.drop st (t ++ [b]))).2 = st := by
        omega
      refine ⟨hsz.1, by omega, ?_⟩
      rw [heq]

/-- The last rune of a string is the first rune of the suffix it occupies:
`DecodeLastRuneInString` returns what `DecodeRuneInString` returns on a suffix
whose length is exactly the width. -/
theorem decodeLastRune_shape (s : Str) (h : s ≠ []) :
    1 ≤ (decodeLastRune s).2 ∧ (decodeLastRune s).2 ≤ s.length ∧
    decodeRune (s.drop (s.length - (decodeLastRune s).2)) = decodeLastRune s := by
  rcases List.eq_nil_or_concat s with h1 | ⟨t, b, h1⟩
  · exact absurd h1 h
  · rw [List.concat_eq_append] at h1
    subst h1
    have h2 := decodeLastRune_concat_shape t b
    simp only [List.length_append, List.length_singleton]
    exact h2

/-! ## Trimming on the right -/

theorem drop_sub_take_append (s : Str) (e n : Nat) (he : e ≤ s.length) :
    s.drop (e - n) = (s.take e).drop (e - n) ++ s.drop e := by
  conv_lhs => rw [← List.take_append_drop e s]
  rw [List.drop_append_of_le_length]
  simp only [List.length_take]
  omega

/-- At a position that is not followed by a continuation byte, the last rune
of the prefix is the rune found by decoding forward from where it starts. -/
theorem decodeRune_at_last (s : Str) (e : Nat) (he1 : 1 ≤ e) (he : e ≤ s.length)
    (hc : NotCont (s.drop e)) :
    decodeRune (s.drop (e - (decodeLastRune (s.take e)).2)) = decodeLastRune (s.take e) := by
  have hp : s.take e ≠ [] := by
    intro h0
    have := congrArg List.length h0
    simp only [List.length_take, List.length_nil] at this
    omega
  obtain ⟨h1, h2, h3⟩ := decodeLastRune_shape (s.take e) hp
  have hlen : (s.take e).length = e := by simp only [List.length_take]; omega
  rw [hlen] at h2 h3
  rw [drop_sub_take_append s e _ he]
  have hal : ((s.take e).drop (e - (decodeLastRune (s.take e)).2)).length
      = (decodeLastRune (s.take e)).2 := by
    simp only [List.length_drop, hlen]
    omega
  have hdec : decodeRune ((s.take e).drop (e - (decodeLastRune (s.take e)).2))
      = ((decodeLastRune (s.take e)).1,
          ((s.take e).drop (e - (decodeLastRune (s.take e)).2)).length) := by
    rw [hal, h3]
  have hne : (s.take e).drop (e - (decodeLastRune (s.take e)).2) ≠ [] := by
    intro h0
    rw [h0] at hal
    simp only [List.length_nil] at hal
    omega
  rw [decodeRune_append _ _ _ hdec hne hc, hal]

theorem lastIndexLoop_spec (s : Str) : ∀ fuel i, i ≤ fuel → i ≤ s.length → NotCont (s.drop i) →
    lastIndexLoop s isSpace false fuel i = none ∨
    ∃ e, 1 ≤ e ∧ e ≤ i ∧ NotCont (s.drop e) ∧ isSpace (decodeLastRune (s.take e)).1 = false ∧
      lastIndexLoop s isSpace false fuel i = some (e - (decodeLastRune (s.take e)).2) := by
  intro fuel
  induction fuel with
  | zero =>
    intro i _ _ _
    left
    rfl
  | succ fuel ih =>
    intro i hif hil hc
    simp only [lastIndexLoop]
    by_cases hi : i = 0
    · left
      simp [hi]
    · rw [if_neg hi]
      have hp : s.take i ≠ [] := by
        intro h0
        have := congrArg List.length h0
        simp only [List.length_take, List.length_nil] at this
        omega
      obtain ⟨h1, h2, _⟩ := decodeLastRune_shape (s.take i) hp
      have hlen : (s.take i).length = i := by simp only [List.length_take]; omega
      rw [hlen] at h2
      by_cases hsp : isSpace (decodeLastRune (s.take i)).1 = true
      · have hne : (isSpace (decodeLastRune (s.take i)).1 == false) = false := by simp [hsp]
        rw [if_neg (by simp [hsp])]
        have hc2 : NotCont (s.drop (i - (decodeLastRune (s.take i)).2)) := by
          apply notCont_of_isSpace
          rw [decodeRune_at_last s i (by omega) hil hc]
          exact hsp
        rcases ih (i - (decodeLastRune (s.take i)).2) (by omega) (by omega) hc2 with h | h
        · left
          exact h
        · right
          obtain ⟨e, he1, he2, he3, he4, he5⟩ := h
          exact ⟨e, he1, by omega, he3, he4, he5⟩
      · simp only [Bool.not_eq_true] at hsp
        right
        refine ⟨i, by omega, le_refl _, hc, hsp, ?_⟩
        rw [if_pos (by simp [hsp])]

/-- The last step of `TrimRightFunc`: from the index of the last rune that is
kept to the end of that rune. -/
theorem trimRightFunc_of_lastIndex (s : Str) (e : Nat) (he1 : 1 ≤ e) (he : e ≤ s.length)
    (hc : NotCont (s.drop e))
    (h : lastIndexFunc s isSpace false = some (e - (decodeLastRune (s.take e)).2)) :
    trimRightFunc s isSpace = s.take e := by
  have hp : s.take e ≠ [] := by
    intro h0
    have := congrArg List.length h0
    simp only [List.length_take, List.length_nil] at this
    omega
  obtain ⟨h1, h2, _⟩ := decodeLastRune_shape (s.take e) hp
  have hlen : (s.take e).length = e := by simp only [List.length_take]; omega
  rw [hlen] at h2
  have hw := decodeRune_at_last s e he1 he hc
  unfold trimRightFunc
  rw [h]
  simp only []
  have hj : e - (decodeLastRune (s.take e)).2 < s.length := by omega
  by_cases hr : RuneSelf ≤ s.getD (e - (decodeLastRune (s.take e)).2) 0
  · rw [if_pos hr, hw]
    congr 1
    omega
  · rw [if_neg hr]
    have hd : s.drop (e - (decodeLastRune (s.take e)).2)
        = s.getD (e - (decodeLastRune (s.take e)).2) 0
            :: s.drop (e - (decodeLastRune (s.take e)).2 + 1) := by
      rw [List.getD_eq_getElem _ _ hj]
      exact List.drop_eq_getElem_cons hj
    rw [hd, decodeRune_ascii _ (by unfold RuneSelf at hr; omega)] at hw
    have h3 : (decodeLastRune (s.take e)).2 = 1 := by
      rw [← hw]
    congr 1
    omega

/-- What `TrimRightFunc` returns: a prefix that is empty or ends with a rune
that is not white space. -/
theorem trimRightFunc_spec (s : Str) :
    ∃ e, e ≤ s.length ∧ trimRightFunc s isSpace = s.take e ∧
      (e = 0 ∨ isSpace (decodeLastRune (s.take e)).1 = false) := by
  have hc : NotCont (s.drop s.length) := by
    rw [List.drop_length]
    exact notCont_nil
  rcases lastIndexLoop_spec s s.length s.length (le_refl _) (le_refl _) hc with h | h
  · refine ⟨0, Nat.zero_le _, ?_, Or.inl rfl⟩
    unfold trimRightFunc lastIndexFunc
    rw [h]
  · obtain ⟨e, he1, he2, he3, he4, he5⟩ := h
    exact ⟨e, he2, trimRightFunc_of_lastIndex s e he1 he2 he3 he5, Or.inr he4⟩

theorem trimRightFunc_id (s : Str) (h : s ≠ []) (hs : isSpace (decodeLastRune s).1 = false) :
    trimRightFunc s isSpace = s := by
  have hlen : 1 ≤ s.length := List.length_pos.2 h
  have hc : NotCont (s.drop s.length) := by
    rw [List.drop_length]
    exact notCont_nil
  have h1 : lastIndexFunc s isSpace false
      = some (s.length - (decodeLastRune (s.take s.length)).2) := by
    unfold lastIndexFunc
    obtain ⟨k, hk⟩ : ∃ k, s.length = k + 1 := ⟨s.length - 1, by omega⟩
    rw [hk]
    simp only [lastIndexLoop]
    rw [if_neg (by omega), ← hk, List.take_length, if_pos (by simp [hs])]
  rw [trimRightFunc_of_lastIndex s s.length hlen (le_refl _) hc h1, List.take_length]

theorem lastIndexLoop_append (z w : Str) (f : Nat → Bool) (truth : Bool) :
    ∀ fuel i, i ≤ z.length →
      lastIndexLoop (z ++ w) f truth fuel i = lastIndexLoop z f truth fuel i := by
  intro fuel
  induction fuel with
  | zero =>
    intro i _
    rfl
  | succ fuel ih =>
    intro i hi
    simp only [lastIndexLoop]
    rw [List.take_append_of_le_length hi]
    rw [ih (i - (decodeLastRune (z.take i)).2) (by omega)]

/-- A terminal ASCII white space byte is trimmed first. -/
theorem trimRightFunc_concat (z : Str) (c : Nat) (hc : c < 0x80) (hs : isSpace c = true) :
    trimRightFunc (z ++ [c]) isSpace = trimRightFunc z isSpace := by
  have h1 : lastIndexFunc (z ++ [c]) isSpace false = lastIndexFunc z isSpace false := by
    unfold lastIndexFunc
    simp only [List.length_append, List.length_singleton, lastIndexLoop]
    rw [if_neg (by omega)]
    have ht : (z ++ [c]).take (z.length + 1) = z ++ [c] := by
      apply List.take_of_length_le
      simp
    rw [ht, decodeLastRune_concat_ascii z hc]
    simp only []
    rw [if_neg (by simp [hs])]
    exact lastIndexLoop_append z [c] isSpace false z.length (z.length + 1 - 1) (by omega)
  have hcz : NotCont (z.drop z.length) := by
    rw [List.drop_length]
    exact notCont_nil
  rcases lastIndexLoop_spec z z.length z.length (le_refl _) (le_refl _) hcz with h | h
  · unfold trimRightFunc
    rw [h1]
    unfold lastIndexFunc
    rw [h]
    simp
  · obtain ⟨e, he1, he2, he3, he4, he5⟩ := h
    rw [trimRightFunc_of_lastIndex z e he1 he2 he3 he5]
    have htake : (z ++ [c]).take e = z.take e := List.take_append_of_le_length he2
    have hc2 : NotCont ((z ++ [c]).drop e) := by
      rw [List.drop_append_of_le_length he2]
      intro b hb
      rcases hz : z.drop e with _ | ⟨y, ys⟩
      · rw [hz] at hb
        simp only [List.nil_append, List.head?_cons, Option.some.injEq] at hb
        subst hb
        unfold isCont
        omega
      · rw [hz] at hb
        apply he3 b
        rw [hz]
        exact hb
    have h2 : lastIndexFunc (z ++ [c]) isSpace false
        = some (e - (decodeLastRune ((z ++ [c]).take e)).2) := by
      rw [h1, htake]
      exact he5
    rw [trimRightFunc_of_lastIndex (z ++ [c]) e he1 (by simp; omega) hc2 h2, htake]

/-! ## Trimming on the left -/

theorem indexLoop_spec : ∀ (fuel : Nat) (s : Str), s.length ≤ fuel →
    indexLoop isSpace false fuel s = none ∨
    ∃ i, i < s.length ∧ indexLoop isSpace false fuel s = some i ∧
      isSpace (decodeRune (s.drop i)).1 = false := by
  intro fuel
  induction fuel with
  | zero =>
    intro s _
    left
    rfl
  | succ fuel ih =>
    intro s hs
    simp only [indexLoop]
    by_cases h0 : s.length = 0
    · left
      rw [if_pos h0]
    · rw [if_neg h0]
      have hne : s ≠ [] := by
        intro h
        rw [h] at h0
        exact h0 rfl
      obtain ⟨h1, _, h3⟩ := decodeRune_size s hne
      by_cases hsp : isSpace (decodeRune s).1 = true
      · rw [if_neg (by simp [hsp])]
        rcases ih (s.drop (decodeRune s).2) (by simp only [List.length_drop]; omega) with h | h
        · left
          rw [h]
          rfl
        · right
          obtain ⟨i, hi1, hi2, hi3⟩ := h
          simp only [List.length_drop] at hi1
          refine ⟨i + (decodeRune s).2, by omega, ?_, ?_⟩
          · rw [hi2]
            rfl
          · rw [List.drop_drop] at hi3
            rw [Nat.add_comm]
            exact hi3
      · simp only [Bool.not_eq_true] at hsp
        right
        refine ⟨0, by omega, ?_, ?_⟩
        · rw [if_pos (by simp [hsp])]
        · simpa using hsp

/-- What `TrimLeftFunc` returns: a suffix that is empty or begins with a rune
that is not white space. -/
theorem trimLeftFunc_spec (s : Str) :
    trimLeftFunc s isSpace = [] ∨
    ∃ i, i < s.length ∧ trimLeftFunc s isSpace = s.drop i ∧
      isSpace (decodeRune (s.drop i)).1 = false := by
  unfold trimLeftFunc indexFunc
  rcases indexLoop_spec s.length s (le_refl _) with h | ⟨i, h1, h2, h3⟩
  · left
    rw [h]
  · right
    rw [h2]
    exact ⟨i, h1, rfl, h3⟩

theorem trimLeftFunc_id (s : Str) (h : s ≠ []) (hs : isSpace (decodeRune s).1 = false) :
    trimLeftFunc s isSpace = s := by
  have hlen : 1 ≤ s.length := List.length_pos.2 h
  unfold trimLeftFunc indexFunc
  obtain ⟨k, hk⟩ : ∃ k, s.length = k + 1 := ⟨s.length - 1, by omega⟩
  rw [hk]
  simp only [indexLoop]
  rw [if_neg (by omega), if_pos (by simp [hs])]
  rfl

theorem indexLoop_nil (f : Nat → Bool) (truth : Bool) (fuel : Nat) :
    indexLoop f truth fuel [] = none := by
  cases fuel <;> simp [indexLoop]

theorem indexLoop_succ (f : Nat → Bool) (truth : Bool) (fuel : Nat) (s : Str) :
    indexLoop f truth (fuel + 1) s =
      if s.length = 0 then none
      else if f (decodeRune s).1 == truth then some 0
      else (indexLoop f truth fuel (s.drop (decodeRune s).2)).map (· + (decodeRune s).2) :=
  rfl

theorem indexLoop_concat (c : Nat) (hc : c < 0x80) (hs : isSpace c = true) :
    ∀ (fuel : Nat) (y : Str), y.length ≤ fuel →
      indexLoop isSpace false (fuel + 1) (y ++ [c]) = indexLoop isSpace false fuel y := by
  intro fuel
  induction fuel with
  | zero =>
    intro y hy
    have h0 : y = [] := List.length_eq_zero.1 (by omega)
    subst h0
    simp only [List.nil_append, indexLoop, List.length_singleton, decodeRune_ascii [] hc]
    simp [hs]
  | succ fuel ih =>
    intro y hy
    rcases y with _ | ⟨b, y1⟩
    · simp only [List.nil_append, indexLoop, List.length_singleton, decodeRune_ascii [] hc]
      simp [hs, indexLoop_nil]
    · have hne : b :: y1 ≠ [] := by simp
      obtain ⟨h1, _, h3⟩ := decodeRune_size (b :: y1) hne
      have hL := indexLoop_succ isSpace false (fuel + 1) (b :: y1 ++ [c])
      have hR := indexLoop_succ isSpace false fuel (b :: y1)
      rw [hL, hR]
      rw [decodeRune_append_ascii _ c hne hc]
      rw [if_neg (show ¬ (b :: y1 ++ [c]).length = 0 by simp),
        if_neg (show ¬ (b :: y1).length = 0 by simp)]
      by_cases hsp : isSpace (decodeRune (b :: y1)).1 = true
      · have hcond : ¬ (isSpace (decodeRune (b :: y1)).1 == false) = true := by simp [hsp]
        rw [if_neg hcond, if_neg hcond]
        rw [List.drop_append_of_le_length h3]
        rw [ih _ (by simp only [List.length_drop]; simp only [List.length_cons] at hy h3 ⊢; omega)]
      · simp only [Bool.not_eq_true] at hsp
        have hcond : (isSpace (decodeRune (b :: y1)).1 == false) = true := by simp [hsp]
        rw [if_pos hcond, if_pos hcond]

theorem trimLeftFunc_concat (y : Str) (c : Nat) (hc : c < 0x80) (hs : isSpace c = true) :
    trimLeftFunc (y ++ [c]) isSpace
      = if trimLeftFunc y isSpace = [] then [] else trimLeftFunc y isSpace ++ [c] := by
  have h1 : indexFunc (y ++ [c]) isSpace false = indexFunc y isSpace false := by
    unfold indexFunc
    simp only [List.length_append, List.length_singleton]
    exact indexLoop_concat c hc hs y.length y (le_refl _)
  unfold trimLeftFunc
  rw [h1]
  unfold indexFunc
  rcases indexLoop_spec y.length y (le_refl _) with h | ⟨i, hi1, hi2, _⟩
  · rw [h]
    simp
  · rw [hi2]
    simp only []
    have hne : y.drop i ≠ [] := by
      intro h0
      rw [List.drop_eq_nil_iff] at h0
      omega
    rw [if_neg hne, List.drop_append_of_le_length (by omega)]

theorem trimRightFunc_nil : trimRightFunc [] isSpace = [] := by
  decide

theorem trimFunc_concat (y : Str) (c : Nat) (hc : c < 0x80) (hs : isSpace c = true) :
    trimFunc (y ++ [c]) isSpace = trimFunc y isSpace := by
  unfold trimFunc
  rw [trimLeftFunc_concat y c hc hs]
  by_cases h : trimLeftFunc y isSpace = []
  · rw [if_pos h, h]
  · rw [if_neg h, trimRightFunc_concat _ c hc hs]

/-! ## What trimming returns -/

theorem take_ne_nil {s : Str} {e : Nat} (hs : s ≠ []) (he : e ≠ 0) : s.take e ≠ [] := by
  intro h
  rw [List.take_eq_nil_iff] at h
  rcases h with h | h
  · exact he h
  · exact hs h

theorem isSpace_decodeRune_take (s : Str) (e : Nat) (he : e ≠ 0)
    (hs : isSpace (decodeRune s).1 = false) : isSpace (decodeRune (s.take e)).1 = false := by
  by_cases h0 : s = []
  · subst h0
    simpa using hs
  · rcases decodeRune_initial (s.take e) (s.drop e) (take_ne_nil h0 he) with h | h
    · rw [h, List.take_append_drop]
      exact hs
    · rw [h]
      exact isSpace_runeError

theorem trimRightFunc_trimmed (s : Str) (hs : isSpace (decodeRune s).1 = false) :
    trimRightFunc s isSpace = [] ∨ Trimmed (trimRightFunc s isSpace) := by
  obtain ⟨e, _, h2, h3⟩ := trimRightFunc_spec s
  rw [h2]
  by_cases he : e = 0
  · left
    rw [he]
    rfl
  · by_cases h0 : s = []
    · left
      rw [h0]
      simp
    · right
      rcases h3 with h3 | h3
      · exact absurd h3 he
      · exact ⟨take_ne_nil h0 he, isSpace_decodeRune_take s e he hs, h3⟩

theorem trimFunc_trimmed (s : Str) :
    trimFunc s isSpace = [] ∨ Trimmed (trimFunc s isSpace) := by
  unfold trimFunc
  rcases trimLeftFunc_spec s with h | ⟨i, _, h2, h3⟩
  · left
    rw [h]
    exact trimRightFunc_nil
  · rw [h2]
    exact trimRightFunc_trimmed _ h3

theorem trimRightFunc_isPrefix (s : Str) : trimRightFunc s isSpace <+: s := by
  obtain ⟨e, _, h2, _⟩ := trimRightFunc_spec s
  rw [h2]
  exact List.take_prefix e s

theorem trimLeftFunc_isSuffix (s : Str) : trimLeftFunc s isSpace <:+ s := by
  rcases trimLeftFunc_spec s with h | ⟨i, _, h2, _⟩
  · rw [h]
    exact List.nil_suffix
  · rw [h2]
    exact List.drop_suffix i s

theorem trimFunc_isInfix (s : Str) : trimFunc s isSpace <:+: s := by
  unfold trimFunc
  exact List.IsInfix.trans (trimRightFunc_isPrefix _).isInfix (trimLeftFunc_isSuffix s).isInfix

theorem trimFunc_id (s : Str) (h : Trimmed s) : trimFunc s isSpace = s := by
  unfold trimFunc
  rw [trimLeftFunc_id s h.1 h.2.1, trimRightFunc_id s h.1 h.2.2]

/-! ## `TrimSpace` -/

theorem trimSpaceStop_isPrefix : ∀ rev : Str, trimSpaceStop rev <+: rev.reverse := by
  intro rev
  induction rev with
  | nil => simp [trimSpaceStop]
  | cons c rev ih =>
    simp only [trimSpaceStop]
    split_ifs
    · exact trimRightFunc_isPrefix _
    · rw [List.reverse_cons]
      exact ih.trans (List.prefix_append _ _)
    · exact List.prefix_refl _

theorem trimSpaceStop_trimmed : ∀ rev : Str, isSpace (decodeRune rev.reverse).1 = false →
    trimSpaceStop rev = [] ∨ Trimmed (trimSpaceStop rev) := by
  intro rev
  induction rev with
  | nil =>
    intro _
    left
    rfl
  | cons c rev ih =>
    intro h
    simp only [trimSpaceStop]
    split_ifs with h1 h2
    · exact trimRightFunc_trimmed _ h
    · by_cases h0 : rev = []
      · left
        rw [h0]
        rfl
      · apply ih
        rw [List.reverse_cons, decodeRune_append_ascii _ c (by simpa using h0)
          (by unfold RuneSelf at h1; omega)] at h
        exact h
    · right
      have hc : c < 0x80 := by unfold RuneSelf at h1; omega
      refine ⟨by simp, h, ?_⟩
      rw [List.reverse_cons, decodeLastRune_concat_ascii _ hc]
      rw [← asciiSpace_eq_isSpace hc]
      simpa using h2

/-- What `TrimSpace` returns is empty, or neither begins nor ends with white
space. -/
theorem trimSpace_trimmed : ∀ x : Str, trimSpace x = [] ∨ Trimmed (trimSpace x) := by
  intro x
  induction x with
  | nil =>
    left
    rfl
  | cons c s ih =>
    simp only [trimSpace]
    split_ifs with h1 h2
    · exact trimFunc_trimmed _
    · exact ih
    · have hc : c < 0x80 := by unfold RuneSelf at h1; omega
      apply trimSpaceStop_trimmed
      rw [List.reverse_reverse, decodeRune_ascii _ hc, ← asciiSpace_eq_isSpace hc]
      simpa using h2

theorem trimSpaceStop_id (u : Str) (h : u ≠ []) (hs : isSpace (decodeLastRune u).1 = false) :
    trimSpaceStop u.reverse = u := by
  rcases List.eq_nil_or_concat u with h1 | ⟨t, d, h1⟩
  · exact absurd h1 h
  · rw [List.concat_eq_append] at h1
    subst h1
    rw [List.reverse_append, List.reverse_singleton, List.singleton_append]
    simp only [trimSpaceStop]
    split_ifs with h1 h2
    · rw [List.reverse_cons, List.reverse_reverse]
      exact trimRightFunc_id _ h hs
    · have hd : d < 0x80 := by unfold RuneSelf at h1; omega
      rw [decodeLastRune_concat_ascii _ hd, ← asciiSpace_eq_isSpace hd, h2] at hs
      cases hs
    · rw [List.reverse_cons, List.reverse_reverse]

/-- A trimmed string is left as it is by `TrimSpace`. -/
theorem trimSpace_id (e : Str) (h : Trimmed e) : trimSpace e = e := by
  rcases e with _ | ⟨c, s⟩
  · exact absurd rfl h.1
  · simp only [trimSpace]
    split_ifs with h1 h2
    · exact trimFunc_id _ h
    · have hc : c < 0x80 := by unfold RuneSelf at h1; omega
      have h3 := h.2.1
      rw [decodeRune_ascii _ hc, ← asciiSpace_eq_isSpace hc, h2] at h3
      cases h3
    · exact trimSpaceStop_id _ h.1 h.2.2

theorem trimSpace_idem (x : Str) : trimSpace (trimSpace x) = trimSpace x := by
  rcases trimSpace_trimmed x with h | h
  · rw [h]
    rfl
  · exact trimSpace_id _ h

/-- `TrimSpace` returns a slice of its argument. -/
theorem trimSpace_isInfix : ∀ x : Str, trimSpace x <:+: x := by
  intro x
  induction x with
  | nil => exact List.infix_refl _
  | cons c s ih =>
    simp only [trimSpace]
    split_ifs
    · exact trimFunc_isInfix _
    · exact ih.trans (List.suffix_cons c s).isInfix
    · have h := trimSpaceStop_isPrefix (c :: s).reverse
      rw [List.reverse_reverse] at h
      exact h.isInfix

/-- A terminal ASCII white space byte makes no difference to `TrimSpace`. -/
theorem trimSpace_concat (c : Nat) (hc : c < 0x80) (hs : asciiSpace c = true) :
    ∀ x : Str, trimSpace (x ++ [c]) = trimSpace x := by
  have hs2 : isSpace c = true := by
    rw [← asciiSpace_eq_isSpace hc]
    exact hs
  intro x
  induction x with
  | nil =>
    simp only [List.nil_append, trimSpace]
    rw [if_neg (by unfold RuneSelf; omega), if_pos hs]
  | cons b s ih =>
    simp only [List.cons_append, trimSpace]
    split_ifs with h1 h2
    · exact trimFunc_concat (b :: s) c hc hs2
    · exact ih
    · have h3 : (b :: s.append [c]).reverse = c :: (b :: s).reverse := by
        show (b :: (s ++ [c])).reverse = c :: (b :: s).reverse
        simp
      rw [h3]
      rw [trimSpaceStop.eq_2]
      rw [if_neg (by unfold RuneSelf; omega), if_pos hs]

theorem trimSpace_dropCR (x : Str) : trimSpace (dropCR x) = trimSpace x := by
  unfold dropCR
  split_ifs with h
  · rcases List.eq_nil_or_concat x with h1 | ⟨t, d, h1⟩
    · subst h1
      cases h
    · rw [List.concat_eq_append] at h1
      subst h1
      have hd : d = 0x0D := by simpa using h
      subst hd
      rw [List.dropLast_concat]
      exact (trimSpace_concat 0x0D (by omega) (by decide) t).symm
  · rfl

theorem dropCR_of_trimmed (e : Str) (h : Trimmed e) : dropCR e = e := by
  unfold dropCR
  split_ifs with h1
  · rcases List.eq_nil_or_concat e with h2 | ⟨t, d, h2⟩
    · exact absurd h2 h.1
    · rw [List.concat_eq_append] at h2
      subst h2
      have hd : d = 0x0D := by simpa using h1
      subst hd
      have h3 := h.2.2
      rw [decodeLastRune_concat_ascii _ (by omega)] at h3
      have h4 : isSpace 0x0D = true := by decide
      rw [h4] at h3
      cases h3
  · rfl

/-! ## Splitting at a byte -/

theorem exists_first_occurrence (c : Nat) : ∀ l : Str, c ∈ l →
    ∃ xs ys, l = xs ++ c :: ys ∧ c ∉ xs := by
  intro l
  induction l with
  | nil =>
    intro h
    cases h
  | cons b l ih =>
    intro h
    by_cases hb : b = c
    · exact ⟨[], l, by simp [hb], by simp⟩
    · have h1 : c ∈ l := by
        rcases List.mem_cons.1 h with h | h
        · exact absurd h.symm hb
        · exact h
      obtain ⟨xs, ys, h2, h3⟩ := ih h1
      refine ⟨b :: xs, ys, by simp [h2], ?_⟩
      intro h4
      rcases List.mem_cons.1 h4 with h4 | h4
      · exact hb h4.symm
      · exact h3 h4

theorem splitOn_first (c : Nat) (xs ys : Str) (h : c ∉ xs) :
    (xs ++ c :: ys).splitOn c = xs :: ys.splitOn c := by
  unfold List.splitOn
  apply List.splitOnP_first
  · intro x hx hxc
    have : x = c := by simpa using hxc
    subst this
    exact h hx
  · simp

theorem splitOn_single (c : Nat) (xs : Str) (h : c ∉ xs) : xs.splitOn c = [xs] := by
  unfold List.splitOn
  apply List.splitOnP_eq_single
  intro x hx hxc
  have : x = c := by simpa using hxc
  subst this
  exact h hx

theorem not_mem_of_mem_splitOn (c : Nat) : ∀ (n : Nat) (data : Str), data.length ≤ n →
    ∀ l ∈ data.splitOn c, c ∉ l := by
  intro n
  induction n with
  | zero =>
    intro data hd l hl
    have h0 : data = [] := List.length_eq_zero.1 (by omega)
    subst h0
    simp only [List.splitOn_nil, List.mem_singleton] at hl
    subst hl
    simp
  | succ n ih =>
    intro data hd l hl
    by_cases hc : c ∈ data
    · obtain ⟨xs, ys, h1, h2⟩ := exists_first_occurrence c data hc
      subst h1
      rw [splitOn_first c xs ys h2] at hl
      rcases List.mem_cons.1 hl with hl | hl
      · subst hl
        exact h2
      · apply ih ys _ l hl
        simp only [List.length_append, List.length_cons] at hd
        omega
    · rw [splitOn_single c data hc] at hl
      simp only [List.mem_singleton] at hl
      subst hl
      exact hc

/-! ## The scanner -/

theorem indexByte_cons (c b : Nat) (data : Str) :
    indexByte c (b :: data) = if b = c then some 0 else (indexByte c data).map (· + 1) :=
  rfl

theorem indexByte_none (c : Nat) : ∀ data : Str, c ∉ data → indexByte c data = none := by
  intro data
  induction data with
  | nil =>
    intro _
    rfl
  | cons b data ih =>
    intro h
    simp only [List.mem_cons, not_or] at h
    simp only [indexByte]
    rw [if_neg (fun hb => h.1 hb.symm), ih h.2]
    rfl

theorem indexByte_first (c : Nat) : ∀ xs ys : Str, c ∉ xs →
    indexByte c (xs ++ c :: ys) = some xs.length := by
  intro xs
  induction xs with
  | nil =>
    intro ys _
    simp [indexByte]
  | cons b xs ih =>
    intro ys h
    simp only [List.mem_cons, not_or] at h
    rw [List.cons_append, indexByte_cons, if_neg (fun hb => h.1 hb.symm), ih ys h.2]
    rfl

theorem scan_nil : scan [] = .done := by
  rfl

theorem scan_line (xs ys : Str) (h : 0x0A ∉ xs) (hlen : xs.length < maxScanTokenSize) :
    scan (xs ++ 0x0A :: ys) = .token (dropCR xs) ys := by
  unfold scan
  rw [if_neg (by simp)]
  have hw : (xs ++ 0x0A :: ys).take maxScanTokenSize
      = xs ++ 0x0A :: ys.take (maxScanTokenSize - xs.length - 1) := by
    rw [List.take_append_eq_append_take, List.take_of_length_le (by omega)]
    congr 1
    obtain ⟨k, hk⟩ : ∃ k, maxScanTokenSize - xs.length = k + 1 :=
      ⟨maxScanTokenSize - xs.length - 1, by omega⟩
    rw [hk, List.take_succ_cons]
    simp
  rw [hw]
  unfold scanLines
  rw [if_neg (by simp)]
  rw [indexByte_first 0x0A xs _ h]
  simp

theorem scan_line_long (xs ys : Str) (h : 0x0A ∉ xs) (hlen : maxScanTokenSize ≤ xs.length) :
    scan (xs ++ 0x0A :: ys) = .failed .tooLong := by
  unfold scan
  rw [if_neg (by simp)]
  have hw : (xs ++ 0x0A :: ys).take maxScanTokenSize = xs.take maxScanTokenSize := by
    rw [List.take_append_of_le_length hlen]
  have hn : (0x0A : Nat) ∉ xs.take maxScanTokenSize := fun hm => h (List.mem_of_mem_take hm)
  have hlt : ¬ xs.length + (ys.length + 1) < maxScanTokenSize := by
    omega
  rw [hw]
  unfold scanLines
  rw [indexByte_none 0x0A _ hn]
  simp [hlt]

theorem scan_last (xs : Str) (h : 0x0A ∉ xs) (hne : xs ≠ [])
    (hlen : xs.length < maxScanTokenSize) : scan xs = .token (dropCR xs) [] := by
  have hpos : 0 < xs.length := List.length_pos.2 hne
  unfold scan
  rw [if_neg (by omega), List.take_of_length_le (by omega)]
  unfold scanLines
  rw [indexByte_none 0x0A _ h]
  have h0 : ¬ xs.length = 0 := by omega
  simp [hlen, h0]

theorem scan_last_long (xs : Str) (h : 0x0A ∉ xs) (hlen : maxScanTokenSize ≤ xs.length) :
    scan xs = .failed .tooLong := by
  have hmax : 0 < maxScanTokenSize := by decide
  unfold scan
  rw [if_neg (by omega)]
  have hn : (0x0A : Nat) ∉ xs.take maxScanTokenSize := fun hm => h (List.mem_of_mem_take hm)
  have hlt : ¬ xs.length < maxScanTokenSize := by omega
  unfold scanLines
  rw [indexByte_none 0x0A _ hn]
  simp [hlt]

/-! ## Reading -/

theorem entries_cons (l : Str) (ls : List Str) :
    entries (l :: ls) = if trimSpace l ≠ [] then trimSpace l :: entries ls else entries ls := by
  unfold entries
  by_cases h : trimSpace l = []
  · simp [h]
  · simp [h]

theorem entries_nil_line : entries [[]] = [] := by
  decide

/-- The loop of `readURLs` fails on the first line that does not fit in the
buffer of the scanner, and otherwise appends the entries of the lines. -/
theorem readLoop_spec : ∀ (fuel : Nat) (rest : Str) (urls : List Str), rest.length < fuel →
    readLoop fuel rest urls =
      if ∀ l ∈ lines rest, l.length < maxScanTokenSize then .ok (urls ++ entries (lines rest))
      else .error .tooLong := by
  intro fuel
  induction fuel with
  | zero =>
    intro rest urls h
    omega
  | succ fuel ih =>
    intro rest urls hlen
    simp only [readLoop]
    by_cases hnil : rest = []
    · subst hnil
      rw [scan_nil]
      have : ∀ l ∈ lines [], l.length < maxScanTokenSize := by
        intro l hl
        simp only [lines, List.splitOn_nil, List.mem_singleton] at hl
        subst hl
        decide
      rw [if_pos this]
      simp only [lines, List.splitOn_nil, entries_nil_line, List.append_nil]
    · by_cases hc : 0x0A ∈ rest
      · obtain ⟨xs, ys, h1, h2⟩ := exists_first_occurrence 0x0A rest hc
        subst h1
        have hl : lines (xs ++ 0x0A :: ys) = xs :: lines ys := splitOn_first 0x0A xs ys h2
        rw [hl]
        simp only [List.length_append, List.length_cons] at hlen
        by_cases hlong : xs.length < maxScanTokenSize
        · rw [scan_line xs ys h2 hlong]
          simp only [trimSpace_dropCR]
          rw [entries_cons]
          by_cases hemp : trimSpace xs = []
          · simp only [hemp, ne_eq, not_true_eq_false, if_false]
            rw [ih ys urls (by omega)]
            simp [hlong]
          · simp only [ne_eq, hemp, not_false_eq_true, if_true]
            rw [ih ys (urls ++ [trimSpace xs]) (by omega)]
            simp [hlong]
        · rw [scan_line_long xs ys h2 (by omega)]
          simp only []
          rw [if_neg]
          intro hall
          exact hlong (hall xs (List.mem_cons_self _ _))
      · have hl : lines rest = [rest] := splitOn_single 0x0A rest hc
        rw [hl]
        by_cases hlong : rest.length < maxScanTokenSize
        · rw [scan_last rest hc hnil hlong]
          simp only [trimSpace_dropCR]
          have hfuel : ([] : Str).length < fuel := by
            have : 0 < rest.length := List.length_pos.2 hnil
            simp only [List.length_nil]
            omega
          have hall : ∀ l ∈ lines [], l.length < maxScanTokenSize := by
            intro l hl
            simp only [lines, List.splitOn_nil, List.mem_singleton] at hl
            subst hl
            decide
          have hlines : entries (lines []) = [] := by
            simp only [lines, List.splitOn_nil, entries_nil_line]
          rw [entries_cons, entries, List.map_nil, List.filter_nil]
          by_cases hemp : trimSpace rest = []
          · simp only [hemp, ne_eq, not_true_eq_false, if_false]
            rw [ih [] urls hfuel, if_pos hall, hlines]
            simp [hlong]
          · simp only [ne_eq, hemp, not_false_eq_true, if_true]
            rw [ih [] (urls ++ [trimSpace rest]) hfuel, if_pos hall, hlines]
            simp [hlong]
        · rw [scan_last_long rest hc (by omega)]
          simp only []
          rw [if_neg]
          intro hall
          exact hlong (hall rest (List.mem_singleton_self _))

/-- What `readURLs` returns: the entries of the lines of the file, unless a
line does not fit in the buffer of the scanner. -/
theorem readURLs_eq (file : Str) :
    readURLs file =
      if ∀ l ∈ lines file, l.length < maxScanTokenSize then .ok (entries (lines file))
      else .error .tooLong := by
  unfold readURLs
  rw [readLoop_spec (file.length + 1) file [] (by omega)]
  simp

theorem mem_entries {ls : List Str} {u : Str} (h : u ∈ entries ls) :
    ∃ l ∈ ls, u = trimSpace l ∧ Trimmed u := by
  unfold entries at h
  rw [List.mem_filter, List.mem_map] at h
  obtain ⟨⟨l, hl, hlu⟩, hne⟩ := h
  refine ⟨l, hl, hlu.symm, ?_⟩
  rcases trimSpace_trimmed l with h1 | h1
  · rw [hlu] at h1
    simp [h1] at hne
  · rw [hlu] at h1
    exact h1

/-! ## Writing, and reading back -/

theorem writeLoop_eq (urls : List Str) (written : Str) :
    writeLoop urls written = written ++ (urls.map fun u => u ++ [0x0A]).flatten := by
  induction urls generalizing written with
  | nil => simp [writeLoop]
  | cons u rest ih =>
    simp only [writeLoop, List.map_cons, List.flatten_cons]
    rw [ih]
    simp

theorem writeOutput_eq (urls : List Str) (outputFile : Str) :
    writeOutput urls outputFile = (urls.map fun u => u ++ [0x0A]).flatten := by
  unfold writeOutput
  split_ifs <;> rw [writeLoop_eq] <;> simp

theorem lines_written (K : List Str) (h : ∀ e ∈ K, 0x0A ∉ e) :
    lines (K.map fun u => u ++ [0x0A]).flatten = K ++ [[]] := by
  induction K with
  | nil => simp [lines]
  | cons e K ih =>
    simp only [List.map_cons, List.flatten_cons, List.append_assoc, List.singleton_append,
      List.cons_append]
    unfold lines
    rw [splitOn_first 0x0A e _ (h e (List.mem_cons_self _ _))]
    congr 1
    exact ih (fun e1 he1 => h e1 (List.mem_cons_of_mem _ he1))

theorem entries_of_trimmed (K : List Str) (h : ∀ e ∈ K, Trimmed e) :
    entries (K ++ [[]]) = K := by
  induction K with
  | nil => decide
  | cons e K ih =>
    have he := h e (List.mem_cons_self _ _)
    rw [List.cons_append, entries_cons, trimSpace_id e he, if_pos he.1,
      ih (fun e1 he1 => h e1 (List.mem_cons_of_mem _ he1))]

/-- Writing a list of trimmed, newline-free entries that fit in the buffer of
the scanner, and reading the text back, returns the list. -/
theorem read_written (K : List Str) (outputFile : Str)
    (h : ∀ e ∈ K, Trimmed e ∧ 0x0A ∉ e ∧ e.length < maxScanTokenSize) :
    readURLs (writeOutput K outputFile) = .ok K := by
  rw [writeOutput_eq, readURLs_eq, lines_written K (fun e he => (h e he).2.1),
    entries_of_trimmed K (fun e he => (h e he).1)]
  rw [if_pos]
  intro l hl
  rcases List.mem_append.1 hl with hl | hl
  · exact (h l hl).2.2
  · simp only [List.mem_singleton] at hl
    subst hl
    decide

/-- The entries `readURLs` returns are trimmed, free of newlines and shorter
than the buffer of the scanner. -/
theorem readURLs_entries (file : Str) (L : List Str) (h : readURLs file = .ok L) :
    ∀ e ∈ L, Trimmed e ∧ 0x0A ∉ e ∧ e.length < maxScanTokenSize := by
  rw [readURLs_eq] at h
  split_ifs at h with hall
  simp only [Except.ok.injEq] at h
  subst h
  intro e he
  obtain ⟨l, hl, hel, ht⟩ := mem_entries he
  have hinf : e <:+: l := by
    rw [hel]
    exact trimSpace_isInfix l
  refine ⟨ht, ?_, ?_⟩
  · intro hmem
    exact not_mem_of_mem_splitOn 0x0A file.length file (le_refl _) l hl (hinf.subset hmem)
  · exact lt_of_le_of_lt hinf.length_le (hall l hl)

/-! ## Splitting the flag `-f` -/

theorem index_single_none (c : Nat) : ∀ s : Str, c ∉ s → index s [c] = none := by
  intro s
  induction s with
  | nil =>
    intro _
    rfl
  | cons b s ih =>
    intro h
    simp only [List.mem_cons, not_or] at h
    have hp : hasPrefix (b :: s) [c] = false := by
      simp [hasPrefix, List.isPrefixOf, h.1]
    simp only [index, hp, ih h.2]
    rfl

theorem index_single_first (c : Nat) : ∀ xs ys : Str, c ∉ xs →
    index (xs ++ c :: ys) [c] = some xs.length := by
  intro xs
  induction xs with
  | nil =>
    intro ys _
    simp [index, hasPrefix, List.isPrefixOf]
  | cons b xs ih =>
    intro ys h
    simp only [List.mem_cons, not_or] at h
    have hp : hasPrefix (b :: (xs ++ c :: ys)) [c] = false := by
      simp [hasPrefix, List.isPrefixOf, h.1]
    rw [List.cons_append, index, hp, ih ys h.2]
    rfl

theorem genSplitLoop_eq (c : Nat) : ∀ (n : Nat) (s : Str), s.count c ≤ n →
    genSplitLoop [c] n s = s.splitOn c := by
  intro n
  induction n with
  | zero =>
    intro s h
    have hc : c ∉ s := by
      intro hm
      have := List.count_pos_iff.2 hm
      omega
    rw [splitOn_single c s hc]
    rfl
  | succ n ih =>
    intro s h
    by_cases hc : c ∈ s
    · obtain ⟨xs, ys, h1, h2⟩ := exists_first_occurrence c s hc
      subst h1
      simp only [genSplitLoop]
      rw [index_single_first c xs ys h2, splitOn_first c xs ys h2]
      simp only [List.length_singleton]
      have hcount : ys.count c ≤ n := by
        rw [List.count_append, List.count_cons_self] at h
        omega
      rw [List.take_left, List.drop_append, List.drop_one, List.tail_cons, ih ys hcount]
    · simp only [genSplitLoop]
      rw [index_single_none c s hc, splitOn_single c s hc]

/-- The model of `strings.Split` cuts at every occurrence of the separator. -/
theorem split_eq (s : Str) (c : Nat) : split s c = s.splitOn c := by
  unfold split count
  apply genSplitLoop_eq
  have := List.count_le_length c s
  omega

theorem length_splitOn (c : Nat) : ∀ (n : Nat) (s : Str), s.length ≤ n →
    (s.splitOn c).length = s.count c + 1 := by
  intro n
  induction n with
  | zero =>
    intro s h
    have h0 : s = [] := List.length_eq_zero.1 (by omega)
    subst h0
    simp
  | succ n ih =>
    intro s h
    by_cases hc : c ∈ s
    · obtain ⟨xs, ys, h1, h2⟩ := exists_first_occurrence c s hc
      subst h1
      simp only [List.length_append, List.length_cons] at h
      rw [splitOn_first c xs ys h2, List.length_cons, ih ys (by omega), List.count_append,
        List.count_cons_self, List.count_eq_zero_of_not_mem h2]
      omega
    · rw [splitOn_single c s hc, List.count_eq_zero_of_not_mem hc]
      rfl

theorem trimLoop_eq : ∀ (k i : Nat) (l : List Str), i + k = l.length →
    trimLoop k i l = l.take i ++ (l.drop i).map trimSpace := by
  intro k
  induction k with
  | zero =>
    intro i l h
    simp only [trimLoop]
    rw [List.drop_of_length_le (by omega), List.take_of_length_le (by omega)]
    simp
  | succ k ih =>
    intro i l h
    simp only [trimLoop]
    have hi : i < l.length := by omega
    rw [ih (i + 1) _ (by rw [List.length_set]; omega)]
    rw [List.getD_eq_getElem _ _ hi, List.set_eq_take_append_cons_drop, if_pos hi]
    have hlen : (l.take i).length = i := by
      rw [List.length_take]
      omega
    have h1 : List.take (i + 1) (l.take i ++ trimSpace l[i] :: l.drop (i + 1))
        = l.take i ++ [trimSpace l[i]] := by
      rw [List.take_append_eq_append_take, hlen, List.take_of_length_le (by omega)]
      simp
    have h2 : List.drop (i + 1) (l.take i ++ trimSpace l[i] :: l.drop (i + 1))
        = l.drop (i + 1) := by
      rw [List.drop_append_eq_append_drop, hlen, List.drop_of_length_le (by omega)]
      simp
    rw [h1, h2, List.drop_eq_getElem_cons hi, List.map_cons]
    simp

theorem resolvePatterns_eq (filters : Str) (h : filters ≠ []) :
    resolvePatterns filters = (filters.splitOn 0x2C).map trimSpace := by
  unfold resolvePatterns
  rw [if_pos h]
  simp only []
  rw [trimLoop_eq _ 0 _ (by simp), split_eq]
  simp

theorem filterURLs_of_nil_mem (L P : List Str) (h : [] ∈ P) : filterURLs L P = [] := by
  rw [filterURLs_eq, List.filter_eq_nil_iff]
  intro u _
  have : shouldFilter u P = true := (shouldFilter_iff u P).2 ⟨[], h, List.nil_infix⟩
  simp [this]

/-! ## Counting -/

theorem filterURLs_sublist (L P : List Str) : (filterURLs L P).Sublist L := by
  rw [filterURLs_eq]
  exact List.filter_sublist L

theorem filterURLs_length_le (L P : List Str) : (filterURLs L P).length ≤ L.length :=
  (filterURLs_sublist L P).length_le

theorem removed_eq_countP (L P : List Str) :
    L.length - (filterURLs L P).length
      = L.countP (fun u => decide (∃ p ∈ P, p <:+: u)) := by
  rw [filterURLs_eq_filter, ← List.countP_eq_length_filter]
  have h := List.length_eq_countP_add_countP (fun u => decide (∀ p ∈ P, ¬ p <:+: u)) L
  have h2 : List.countP (fun a => decide ¬(fun u => decide (∀ p ∈ P, ¬ p <:+: u)) a = true) L
      = List.countP (fun u => decide (∃ p ∈ P, p <:+: u)) L := by
    apply List.countP_congr
    intro u _
    simp
  rw [h2] at h
  omega

theorem fmtD_sub (a b : Nat) (h : b ≤ a) : fmtD ((a : Int) - (b : Int)) = digits (a - b) := by
  have : (a : Int) - (b : Int) = ((a - b : Nat) : Int) := by omega
  rw [this]
  rfl

theorem fmtD_natCast (a : Nat) : fmtD (a : Int) = digits a :=
  rfl

theorem count_filterURLs (L P : List Str) (u : Str) :
    (filterURLs L P).count u = if ∃ p ∈ P, p <:+: u then 0 else L.count u := by
  rw [filterURLs_eq_filter]
  by_cases h : ∃ p ∈ P, p <:+: u
  · rw [if_pos h]
    apply List.count_eq_zero_of_not_mem
    intro hm
    have h1 := (List.mem_filter.1 hm).2
    rw [decide_eq_true_iff] at h1
    obtain ⟨p, hp, hin⟩ := h
    exact h1 p hp hin
  · rw [if_neg h]
    apply List.count_filter
    rw [decide_eq_true_iff]
    intro p hp hin
    exact h ⟨p, hp, hin⟩

/-! ## The claims -/

/-- C1. `filterURLs` returns its first argument with exactly the entries removed
that contain a pattern as a substring (a contiguous run of bytes, compared byte
by byte, so case matters): the result is the list filtered by "contains no
pattern", no entry of the result contains a pattern, an entry that contains a
pattern is gone and any other entry keeps its multiplicity.  This holds for
every pattern list, the non-empty ones in particular.  With the patterns
`www.`, `.js`, `outfit` the URL `http://outfit.example.com/app.js` is dropped. -/
theorem filterURLs_removes_exactly_the_matches (L P : List Str) :
    filterURLs L P = L.filter (fun u => decide (∀ p ∈ P, ¬ p <:+: u)) ∧
    (∀ u ∈ filterURLs L P, ∀ p ∈ P, ¬ p <:+: u) ∧
    (∀ u, (filterURLs L P).count u = if ∃ p ∈ P, p <:+: u then 0 else L.count u) ∧
    (∀ u, (filterURLs L P).count u < L.count u → ∃ p ∈ P, p <:+: u) ∧
    filterURLs [utf8 "http://outfit.example.com/app.js"]
      [utf8 "www.", utf8 ".js", utf8 "outfit"] = [] := by
  refine ⟨filterURLs_eq_filter L P, ?_, count_filterURLs L P, ?_, by decide⟩
  · intro u hu
    rw [filterURLs_eq_filter, List.mem_filter, decide_eq_true_iff] at hu
    exact hu.2
  · intro u hu
    rw [count_filterURLs] at hu
    by_contra hne
    rw [if_neg hne] at hu
    omega

/-- C2. `filterURLs` returns a subsequence of its first argument: entries are
deleted only, the survivors keep their relative order, nothing is added,
duplicated or reordered. -/
theorem filterURLs_is_subsequence (L P : List Str) : (filterURLs L P).Sublist L :=
  filterURLs_sublist L P

/-- C3. With an empty pattern list `filterURLs` is the identity; the empty
pattern list is what `main` resolves from an absent or empty flag `-f`. -/
theorem filterURLs_no_patterns (L : List Str) :
    filterURLs L [] = L ∧ resolvePatterns [] = [] ∧ filterURLs L (resolvePatterns []) = L :=
  ⟨rfl, rfl, rfl⟩

/-- C4. `readURLs` succeeds exactly when every line of the file fits in the
buffer of the scanner, and then returns the lines of the file, each trimmed,
without the lines that are empty after trimming, in order; every entry
returned is not empty and neither begins nor ends with white space.  The lines
`http://a.com`, an empty line, a line of two blanks and `http://b.com` read as
the two URLs. -/
theorem readURLs_returns_trimmed_lines (file : Str) :
    readURLs file =
      (if ∀ l ∈ lines file, l.length < maxScanTokenSize then
        .ok (((lines file).map trimSpace).filter (fun l => decide (l ≠ [])))
      else .error .tooLong) ∧
    (∀ urls, readURLs file = .ok urls →
      urls = ((lines file).map trimSpace).filter (fun l => decide (l ≠ [])) ∧
      urls.Sublist ((lines file).map trimSpace) ∧
      ∀ u ∈ urls, u ≠ [] ∧ isSpace (decodeRune u).1 = false
        ∧ isSpace (decodeLastRune u).1 = false) ∧
    readURLs (utf8 "http://a.com\n\n  \nhttp://b.com\n")
      = .ok [utf8 "http://a.com", utf8 "http://b.com"] := by
  refine ⟨readURLs_eq file, ?_, by decide⟩
  intro urls h
  have h1 := readURLs_entries file urls h
  rw [readURLs_eq] at h
  split_ifs at h
  simp only [Except.ok.injEq] at h
  refine ⟨h.symm, ?_, fun u hu => (h1 u hu).1⟩
  rw [← h]
  exact List.filter_sublist _

/-- C5. `writeOutput` emits the entries in order, each followed by one newline
byte, and nothing else: the empty list gives the empty text, and the text is
the same for a file and for the standard output. -/
theorem writeOutput_emits_lines (urls : List Str) (outputFile : Str) :
    writeOutput urls outputFile = (urls.map fun u => u ++ [0x0A]).flatten ∧
    writeOutput [] outputFile = [] :=
  ⟨writeOutput_eq urls outputFile, by rw [writeOutput_eq]; rfl⟩

theorem trimmed_replicate (n : Nat) : Trimmed (List.replicate (n + 1) 0x61) := by
  refine ⟨by simp [List.replicate_succ], ?_, ?_⟩
  · rw [List.replicate_succ, decodeRune_ascii _ (by omega)]
    decide
  · rw [List.replicate_succ', decodeLastRune_concat_ascii _ (by omega)]
    decide

theorem read_written_long (outputFile : Str) :
    readURLs (writeOutput [List.replicate (65535 + 1) 0x61] outputFile) = .error .tooLong := by
  have hn : ∀ e ∈ [List.replicate (65535 + 1) 0x61], (0x0A : Nat) ∉ e := by
    intro e he
    rw [List.mem_singleton] at he
    subst he
    intro hm
    have := List.eq_of_mem_replicate hm
    omega
  rw [writeOutput_eq, readURLs_eq, lines_written _ hn, if_neg]
  intro hall
  have h := hall (List.replicate (65535 + 1) 0x61)
    (List.mem_append_left _ (List.mem_singleton_self _))
  rw [List.length_replicate] at h
  have hmax : maxScanTokenSize = 65535 + 1 := by decide
  omega

/-- C6, as stated, fails: an entry with a leading blank is neither empty nor
made of white space only, it passes the filter unchanged, and it is read back
without the blank; an entry with a newline inside is read back as two; and an
entry of 65536 letters passes the filter and is not read back at all, the
scanner reporting a token that is too long. -/
theorem roundtrip_fails_on_untrimmed_entry :
    (filterURLs [utf8 " http://a.com"] [utf8 "www."] = [utf8 " http://a.com"] ∧
      trimSpace (utf8 " http://a.com") ≠ [] ∧
      readURLs (writeOutput (filterURLs [utf8 " http://a.com"] [utf8 "www."]) [])
        = .ok [utf8 "http://a.com"] ∧
      readURLs (writeOutput (filterURLs [utf8 " http://a.com"] [utf8 "www."]) [])
        ≠ .ok (filterURLs [utf8 " http://a.com"] [utf8 "www."])) ∧
    (trimSpace (utf8 "a\nb") ≠ [] ∧
      readURLs (writeOutput (filterURLs [utf8 "a\nb"] []) []) = .ok [utf8 "a", utf8 "b"]) ∧
    (trimSpace (List.replicate (65535 + 1) 0x61) ≠ [] ∧
      readURLs (writeOutput (filterURLs [List.replicate (65535 + 1) 0x61] []) [])
        = .error .tooLong) := by
  refine ⟨by decide, by decide, ?_, ?_⟩
  · rw [trimSpace_id _ (trimmed_replicate 65535)]
    exact (trimmed_replicate 65535).1
  · have hK : filterURLs [List.replicate (65535 + 1) 0x61] []
        = [List.replicate (65535 + 1) 0x61] := by
      unfold filterURLs
      rfl
    rw [hK]
    exact read_written_long []

/-- C6, amended. When every entry of `filterURLs L P` is trimmed (not empty,
no white space at either end), has no newline byte and is shorter than the
buffer of the scanner, writing the list and reading the text back returns the
list. -/
theorem roundtrip_of_trimmed_entries (L P : List Str) (outputFile : Str)
    (h : ∀ e ∈ filterURLs L P, Trimmed e ∧ 0x0A ∉ e ∧ e.length < maxScanTokenSize) :
    readURLs (writeOutput (filterURLs L P) outputFile) = .ok (filterURLs L P) :=
  read_written (filterURLs L P) outputFile h

/-- Witness for C6, amended: the filtered list of scenario 1, cut to two URLs. -/
theorem roundtrip_of_trimmed_entries_witness :
    (∀ e ∈ filterURLs [utf8 "http://a.com/x", utf8 "http://www.b.com/y"] [utf8 "www."],
      Trimmed e ∧ 0x0A ∉ e ∧ e.length < maxScanTokenSize) ∧
    readURLs (writeOutput
        (filterURLs [utf8 "http://a.com/x", utf8 "http://www.b.com/y"] [utf8 "www."]) [])
      = .ok (filterURLs [utf8 "http://a.com/x", utf8 "http://www.b.com/y"] [utf8 "www."]) :=
  ⟨by decide,
    roundtrip_of_trimmed_entries [utf8 "http://a.com/x", utf8 "http://www.b.com/y"]
      [utf8 "www."] [] (by decide)⟩

/-- C7. For a non-empty flag `-f` the resolved patterns are the pieces between
the commas of the flag, each trimmed, empty pieces kept, so there is one
pattern more than there are commas; and when an empty pattern is among them
`filterURLs` returns the empty list whatever the URLs are. -/
theorem resolvePatterns_splits_and_trims (filters : Str) (h : filters ≠ []) :
    resolvePatterns filters = (filters.splitOn 0x2C).map trimSpace ∧
    (resolvePatterns filters).length = filters.count 0x2C + 1 ∧
    ([] ∈ resolvePatterns filters → ∀ L, filterURLs L (resolvePatterns filters) = []) := by
  refine ⟨resolvePatterns_eq filters h, ?_, ?_⟩
  · rw [resolvePatterns_eq filters h, List.length_map,
      length_splitOn 0x2C filters.length filters (le_refl _)]
  · intro hmem L
    exact filterURLs_of_nil_mem L _ hmem

/-- Witness for C7: the flag `a,,b`; the flags `a,,b`, `,` and a single blank
resolve to lists with an empty pattern, the flag `www., .js ,outfit` to three
trimmed patterns. -/
theorem resolvePatterns_splits_and_trims_witness :
    utf8 "a,,b" ≠ [] ∧
    (resolvePatterns (utf8 "a,,b") = ((utf8 "a,,b").splitOn 0x2C).map trimSpace ∧
      (resolvePatterns (utf8 "a,,b")).length = (utf8 "a,,b").count 0x2C + 1 ∧
      ([] ∈ resolvePatterns (utf8 "a,,b") →
        ∀ L, filterURLs L (resolvePatterns (utf8 "a,,b")) = [])) ∧
    resolvePatterns (utf8 "a,,b") = [utf8 "a", [], utf8 "b"] ∧
    resolvePatterns (utf8 ",") = [[], []] ∧
    resolvePatterns (utf8 " ") = [[]] ∧
    resolvePatterns (utf8 "www., .js ,outfit") = [utf8 "www.", utf8 ".js", utf8 "outfit"] :=
  ⟨by decide, resolvePatterns_splits_and_trims (utf8 "a,,b") (by decide),
    by decide, by decide, by decide, by decide⟩

/-- C8. A run that reads the list `L` ends with the summary
`Filtered <removed> URLs, <remaining> remaining`, where `remaining` is the
length of the filtered list and `removed` is the length of `L` minus it; the
difference computed on Go integers is not negative, the two counts add up to
the length of `L`, and `removed` is the number of entries of `L` that contain a
pattern (none when there is no pattern). -/
theorem summary_reports_the_counts (flags : Flags) (file : Str) (L : List Str)
    (hhelp : flags.help = false) (hinput : flags.inputFile ≠ [])
    (hread : readURLs file = .ok L) :
    main flags file
      = .success (writeOutput (filterURLs L (resolvePatterns flags.filters)) flags.outputFile)
          (utf8 "Filtered "
            ++ digits (L.length - (filterURLs L (resolvePatterns flags.filters)).length)
            ++ utf8 " URLs, "
            ++ digits (filterURLs L (resolvePatterns flags.filters)).length
            ++ utf8 " remaining\n") ∧
    ∀ P : List Str,
      (0 : Int) ≤ (L.length : Int) - ((filterURLs L P).length : Int) ∧
      (L.length - (filterURLs L P).length) + (filterURLs L P).length = L.length ∧
      L.length - (filterURLs L P).length
        = L.countP (fun u => decide (∃ p ∈ P, p <:+: u)) ∧
      L.length - (filterURLs L []).length = 0 := by
  constructor
  · unfold main
    rw [hhelp, hread]
    have hi : decide (flags.inputFile = []) = false := by simpa using hinput
    simp only [hi, Bool.or_false, Bool.false_eq_true, if_false, summary]
    rw [fmtD_sub _ _ (filterURLs_length_le L _), fmtD_natCast]
  · intro P
    have hle := filterURLs_length_le L P
    refine ⟨by omega, by omega, removed_eq_countP L P, ?_⟩
    have : filterURLs L [] = L := rfl
    rw [this]
    omega

/-- Witness for C8: scenario 1 ends with `Filtered 1 URLs, 2 remaining`. -/
theorem summary_reports_the_counts_witness :
    main ⟨utf8 "urls.txt", utf8 "www.", [], false⟩
        (utf8 "http://a.com/x\nhttp://www.b.com/y\nhttp://c.com/z\n")
      = .success (utf8 "http://a.com/x\nhttp://c.com/z\n")
          (utf8 "Filtered 1 URLs, 2 remaining\n") ∧
    readURLs (utf8 "http://a.com/x\nhttp://www.b.com/y\nhttp://c.com/z\n")
      = .ok [utf8 "http://a.com/x", utf8 "http://www.b.com/y", utf8 "http://c.com/z"] ∧
    filterURLs [utf8 "http://a.com/x", utf8 "http://www.b.com/y", utf8 "http://c.com/z"]
        [utf8 "www."]
      = [utf8 "http://a.com/x", utf8 "http://c.com/z"] := by
  have h := summary_reports_the_counts ⟨utf8 "urls.txt", utf8 "www.", [], false⟩
    (utf8 "http://a.com/x\nhttp://www.b.com/y\nhttp://c.com/z\n")
    [utf8 "http://a.com/x", utf8 "http://www.b.com/y", utf8 "http://c.com/z"]
    rfl (by decide) (by decide)
  refine ⟨?_, by decide, by decide⟩
  rw [h.1]
  decide

/-- C9. Two pattern lists with the same elements, in whatever order and with
whatever repetitions, filter alike: `shouldFilter` agrees on every URL and
`filterURLs` on every URL list. -/
theorem filterURLs_ignores_pattern_order (L P Q : List Str) (h : ∀ p, p ∈ P ↔ p ∈ Q) :
    filterURLs L P = filterURLs L Q ∧ ∀ u, shouldFilter u P = shouldFilter u Q := by
  have hs : ∀ u, shouldFilter u P = shouldFilter u Q := by
    intro u
    rw [Bool.eq_iff_iff, shouldFilter_iff, shouldFilter_iff]
    constructor
    · rintro ⟨p, hp, hin⟩
      exact ⟨p, (h p).1 hp, hin⟩
    · rintro ⟨p, hp, hin⟩
      exact ⟨p, (h p).2 hp, hin⟩
  refine ⟨?_, hs⟩
  rw [filterURLs_eq, filterURLs_eq]
  apply List.filter_congr
  intro u _
  rw [hs u]

/-- Witness for C9: two patterns, and the same two reordered with one repeated. -/
theorem filterURLs_ignores_pattern_order_witness :
    (∀ p, p ∈ [utf8 "www.", utf8 ".js"] ↔ p ∈ [utf8 ".js", utf8 "www.", utf8 ".js"]) ∧
    (filterURLs [utf8 "http://a.com/app.js", utf8 "http://b.com/"] [utf8 "www.", utf8 ".js"]
        = filterURLs [utf8 "http://a.com/app.js", utf8 "http://b.com/"]
            [utf8 ".js", utf8 "www.", utf8 ".js"] ∧
      ∀ u, shouldFilter u [utf8 "www.", utf8 ".js"]
        = shouldFilter u [utf8 ".js", utf8 "www.", utf8 ".js"]) :=
  ⟨by intro p; simp only [List.mem_cons, List.mem_singleton, List.not_mem_nil]; tauto,
    filterURLs_ignores_pattern_order _ _ _
      (by intro p; simp only [List.mem_cons, List.mem_singleton, List.not_mem_nil]; tauto)⟩

/-- C10. What the program writes is a fixed point of its reader: when
`readURLs` returns `L`, writing `filterURLs L P` and reading the text back
returns `filterURLs L P`. -/
theorem output_is_fixed_point_of_reader (file : Str) (P : List Str) (outputFile : Str)
    (L : List Str) (h : readURLs file = .ok L) :
    readURLs (writeOutput (filterURLs L P) outputFile) = .ok (filterURLs L P) := by
  apply read_written
  intro e he
  exact readURLs_entries file L h e ((filterURLs_sublist L P).subset he)

/-- Witness for C10: a file with padded lines, a carriage return, an empty line
and no final newline. -/
theorem output_is_fixed_point_of_reader_witness :
    readURLs (utf8 "  http://a.com/x \r\n\nhttp://www.b.com/y\n\thttp://c.com/z")
      = .ok [utf8 "http://a.com/x", utf8 "http://www.b.com/y", utf8 "http://c.com/z"] ∧
    readURLs (writeOutput
        (filterURLs [utf8 "http://a.com/x", utf8 "http://www.b.com/y", utf8 "http://c.com/z"]
          [utf8 "www."]) [])
      = .ok (filterURLs
          [utf8 "http://a.com/x", utf8 "http://www.b.com/y", utf8 "http://c.com/z"]
          [utf8 "www."]) :=
  ⟨by decide,
    output_is_fixed_point_of_reader
      (utf8 "  http://a.com/x \r\n\nhttp://www.b.com/y\n\thttp://c.com/z") [utf8 "www."] []
      [utf8 "http://a.com/x", utf8 "http://www.b.com/y", utf8 "http://c.com/z"] (by decide)⟩

end Urlsfilt
